import Mathlib

/-!
Verification of the hybrid vector-graph knowledge engine
(`src/graph_engine.py`, `src/persistence.py`).

Shallow embedding conventions:
* Python floats (confidence values, similarity scores) are modelled as `ℚ`.
* The external collaborators (embedding provider, LanceDB index ordering)
  are modelled as inputs: `semantic_search` results are passed in as
  oracle lists of `(AtomicUnit, score)` pairs, the generated uuid and the
  embedding vector are explicit parameters of `add_proposition`.
* The LanceDB `units` table is a list of rows scanned in insertion order.
* The NetworkX `DiGraph` is a node list plus an association list of
  directed edges carrying edge attributes; `nx.shortest_path` on the
  undirected view is modelled by a bounded search that returns a
  minimum-node-count walk (NetworkX also returns a shortest path; ties
  between equal-length paths are irrelevant to every property below).
* Python exceptions become `Except` results; an operation that raises
  before mutating returns the unchanged state alongside the error.
-/

namespace KG

/-- Modelled from the spec: `Relation` of `src/model.py` (absent from the
sources) — a directed typed edge with `source_id`, `target_id`, `type`
(a bare string per §9 of the spec) and `reasoning`. -/
structure Relation where
  source_id : String
  target_id : String
  type : String
  reasoning : String
deriving DecidableEq, Repr

/-- Modelled from the spec: `AtomicUnit` of `src/model.py` (absent from the
sources) — an immutable claim record.  `created_at` is dropped: no claim
refers to it and `get_unit` does not reconstruct it from the stored row. -/
structure AtomicUnit where
  id : String
  content : String
  source_doi : Option String
  confidence : ℚ
  vector : List ℚ
deriving DecidableEq, Repr

/-- A row of the LanceDB `units` table (schema of `_init_table`):
`source_doi` is a non-null string column, absence is stored as `""`. -/
structure Row where
  id : String
  content : String
  source_doi : String
  confidence : ℚ
  created_at : String
  vector : List ℚ
deriving DecidableEq, Repr

/-- Edge attributes stored by `graph.add_edge(..., type=..., reasoning=...)`. -/
structure EdgeData where
  type : String
  reasoning : String
deriving DecidableEq, Repr

/-- The in-memory NetworkX `DiGraph`: explicitly added node ids plus
directed edges with attributes.  Node labels (`content=`) are dropped:
no operation ever reads them back. -/
structure DiGraph where
  nodes : List String
  edges : List (String × String × EdgeData)
deriving DecidableEq, Repr

def DiGraph.empty : DiGraph := ⟨[], []⟩

/-- `G.add_node(n, ...)`: idempotent on the node set. -/
def DiGraph.add_node (g : DiGraph) (n : String) : DiGraph :=
  if n ∈ g.nodes then g else { g with nodes := g.nodes ++ [n] }

/-- `G.has_edge(u, v)` on the directed graph. -/
def DiGraph.has_edge (g : DiGraph) (u v : String) : Bool :=
  g.edges.any (fun e => e.1 == u && e.2.1 == v)

/-- `G.edges[u, v]`: attribute lookup for a directed edge. -/
def DiGraph.edge_data (g : DiGraph) (u v : String) : Option EdgeData :=
  (g.edges.find? (fun e => e.1 == u && e.2.1 == v)).map (fun e => e.2.2)

/-- `G.add_edge(u, v, **attrs)`: inserts missing endpoints as nodes and
replaces the attributes if the directed edge already exists. -/
def DiGraph.add_edge (g : DiGraph) (u v : String) (d : EdgeData) : DiGraph :=
  let g1 := (g.add_node u).add_node v
  if g1.has_edge u v then
    { g1 with edges := g1.edges.map (fun e => if e.1 == u && e.2.1 == v then (u, v, d) else e) }
  else
    { g1 with edges := g1.edges ++ [(u, v, d)] }

/-- `G.remove_node(n)`: removes the node and every incident edge. -/
def DiGraph.remove_node (g : DiGraph) (n : String) : DiGraph :=
  { nodes := g.nodes.filter (fun m => m ≠ n),
    edges := g.edges.filter (fun e => e.1 ≠ n ∧ e.2.1 ≠ n) }

/-- The node set of the graph as NetworkX sees it: explicitly added nodes
plus every edge endpoint (NetworkX `add_edge` inserts endpoints, so for
graphs built through the API this equals `nodes` as a set). -/
def DiGraph.allNodes (g : DiGraph) : List String :=
  g.nodes ++ g.edges.flatMap (fun e => [e.1, e.2.1])

/-- Adjacency in `G.to_undirected()`: an edge in either direction. -/
def DiGraph.adjB (g : DiGraph) (u v : String) : Bool :=
  g.has_edge u v || g.has_edge v u

/-- `G.has_node(n)`. -/
def DiGraph.has_node (g : DiGraph) (n : String) : Bool :=
  decide (n ∈ g.allNodes)

/- ------------------------------------------------------------------ -/
/- Persistence layer (`src/persistence.py`)                            -/
/- ------------------------------------------------------------------ -/

/-- `PersistenceManager.get_relations_for_unit`: relations having the unit
as either endpoint, in store order. -/
def get_relations_for_unit (rels : List Relation) (uid : String) : List Relation :=
  rels.filter (fun r => r.source_id == uid || r.target_id == uid)

/-- `PersistenceManager.delete_relations_for_unit`: drops every relation
touching the unit, returning the remaining store and the removed count. -/
def delete_relations_for_unit (rels : List Relation) (uid : String) :
    List Relation × Nat :=
  let remaining := rels.filter (fun r => r.source_id != uid && r.target_id != uid)
  (remaining, rels.length - remaining.length)

/- ------------------------------------------------------------------ -/
/- Engine state and basic operations (`src/graph_engine.py`)           -/
/- ------------------------------------------------------------------ -/

/-- The mutable state of a `KnowledgeGraph` instance: the LanceDB table,
the NetworkX graph and the persisted relation list. -/
structure EngineState where
  table : List Row
  graph : DiGraph
  relations : List Relation
deriving Repr

/-- `_load_graph_from_persistence`: rebuild the graph from stored relations;
isolated units get no node. -/
def load_graph_from_persistence (rels : List Relation) : DiGraph :=
  rels.foldl (fun g r => g.add_edge r.source_id r.target_id ⟨r.type, r.reasoning⟩)
    DiGraph.empty

/-- `KnowledgeGraph.get_unit`: first table row with a matching id,
reconstructed into an `AtomicUnit` (`""` in the `source_doi` column reads
back as absent). -/
def get_unit (table : List Row) (unit_id : String) : Option AtomicUnit :=
  match table.find? (fun r => r.id == unit_id) with
  | none => none
  | some row =>
      some { id := row.id, content := row.content,
             source_doi := if row.source_doi == "" then none else some row.source_doi,
             confidence := row.confidence, vector := row.vector }

/-- `KnowledgeGraph.add_proposition`.  The uuid generated when no id is
supplied, the embedding vector and the creation timestamp come from
outside the core and are passed as parameters.  The stored row flattens
an absent `source_doi` to `""` (Python `unit.source_doi or ""`). -/
def add_proposition (st : EngineState) (content : String)
    (source_doi : Option String) (confidence : ℚ) (unit_id : Option String)
    (gen_id : String) (vector : List ℚ) (created_at : String) :
    EngineState × AtomicUnit :=
  let uid := match unit_id with | some i => i | none => gen_id
  let unit : AtomicUnit :=
    { id := uid, content := content, source_doi := source_doi,
      confidence := confidence, vector := vector }
  let row : Row :=
    { id := unit.id, content := unit.content,
      source_doi := unit.source_doi.getD "",
      confidence := unit.confidence, created_at := created_at,
      vector := unit.vector }
  ({ st with table := st.table ++ [row],
             graph := st.graph.add_node unit.id }, unit)

/-- `KnowledgeGraph.connect_concepts`: verify both endpoints via
`get_unit` (raising before any mutation if either is missing), then add
the edge to the graph and append the relation to the store. -/
def connect_concepts (st : EngineState)
    (source_id target_id relation_type reasoning : String) :
    EngineState × Except String Relation :=
  match get_unit st.table source_id with
  | none => (st, .error ("Source unit not found: " ++ source_id))
  | some _ =>
    match get_unit st.table target_id with
    | none => (st, .error ("Target unit not found: " ++ target_id))
    | some _ =>
      let rel : Relation :=
        { source_id := source_id, target_id := target_id,
          type := relation_type, reasoning := reasoning }
      ({ st with
          graph := st.graph.add_edge source_id target_id ⟨relation_type, reasoning⟩,
          relations := st.relations ++ [rel] }, .ok rel)

/-- The dict returned by `KnowledgeGraph.delete_unit`. -/
structure DeleteReport where
  deleted_unit_id : String
  deleted_content : String
  deleted_source : Option String
  deleted_relations_count : Nat
  connections_removed : Nat
deriving DecidableEq, Repr

/-- `KnowledgeGraph.delete_unit`: fails (state unchanged) when the unit is
absent; otherwise captures its relations, deletes the table rows, removes
the graph node if present and drops all touching relations from the store. -/
def delete_unit (st : EngineState) (unit_id : String) :
    EngineState × Except String DeleteReport :=
  match get_unit st.table unit_id with
  | none => (st, .error ("Unit not found: " ++ unit_id))
  | some unit =>
    let connections := get_relations_for_unit st.relations unit_id
    let table' := st.table.filter (fun r => r.id != unit_id)
    let graph' := if st.graph.has_node unit_id
                  then st.graph.remove_node unit_id else st.graph
    let res := delete_relations_for_unit st.relations unit_id
    ({ table := table', graph := graph', relations := res.1 },
     .ok { deleted_unit_id := unit_id, deleted_content := unit.content,
           deleted_source := unit.source_doi,
           deleted_relations_count := res.2,
           connections_removed := connections.length })

/- ------------------------------------------------------------------ -/
/- `nx.shortest_path` on the undirected view                           -/
/- ------------------------------------------------------------------ -/

/-- Candidate neighbors of `u` in the undirected view. -/
def DiGraph.nbrs (g : DiGraph) (u : String) : List String :=
  g.allNodes.dedup.filter (fun v => g.adjB u v)

/-- All undirected walks of `k + 1` nodes starting at `s`, each stored in
reverse (head = current endpoint). -/
def rwalks (g : DiGraph) (s : String) : Nat → List (List String)
  | 0 => [[s]]
  | n + 1 =>
    (rwalks g s n).flatMap (fun p =>
      match p with
      | [] => []
      | u :: _ => (g.nbrs u).map (fun v => v :: p))

/-- First walk of exactly `k + 1` nodes from `s` to `t`, if any. -/
def findWalk (g : DiGraph) (s t : String) (k : Nat) : Option (List String) :=
  ((rwalks g s k).find? (fun p => decide (p.head? = some t))).map List.reverse

/-- Search for a walk from `s` to `t` by increasing node count, up to
`fuel + 1` nodes. -/
def spSearch (g : DiGraph) (s t : String) : Nat → Option (List String)
  | 0 => findWalk g s t 0
  | n + 1 =>
    match spSearch g s t n with
    | some p => some p
    | none => findWalk g s t (n + 1)

/-- The two NetworkX exceptions `nx.shortest_path` can raise here:
`NodeNotFound` (an endpoint is not a node of the graph — NOT caught by
`find_path`) and `NetworkXNoPath` (caught and treated as "skip pair"). -/
inductive NxErr
  | nodeNotFound
  | noPath
deriving DecidableEq, Repr

/-- `nx.shortest_path(G.to_undirected(), s, t)`: raises `NodeNotFound` when
an endpoint is missing, otherwise returns a minimum-node-count walk or
raises `NetworkXNoPath`.  A shortest walk is simple, so searching up to
`|nodes| + 1` nodes is exhaustive. -/
def shortest_path (g : DiGraph) (s t : String) : Except NxErr (List String) :=
  if s ∈ g.allNodes ∧ t ∈ g.allNodes then
    match spSearch g s t g.allNodes.dedup.length with
    | some p => .ok p
    | none => .error .noPath
  else .error .nodeNotFound

/- ------------------------------------------------------------------ -/
/- `find_path` (`src/graph_engine.py` lines 206-285)                   -/
/- ------------------------------------------------------------------ -/

/-- `find_path` failure modes: the two "no units found matching" errors
and the uncaught NetworkX `NodeNotFound`. -/
inductive FPError
  | noMatchStart
  | noMatchEnd
  | nodeNotFound
deriving DecidableEq, Repr

/-- Modelled from the spec: `LineageStep` of `src/model.py` (absent from
the sources) — one unit plus the relation to the next step, if any. -/
structure LineageStep where
  unit : AtomicUnit
  relation_to_next : Option Relation
deriving DecidableEq, Repr

/-- The candidate pairs in start-candidate-major, end-candidate-minor
order (the nested `for` loops of `find_path`). -/
def pairsOf (sr er : List (AtomicUnit × ℚ)) : List (String × String) :=
  sr.flatMap (fun s => er.map (fun e => (s.1.id, e.1.id)))

/-- Keep the better of the running best path and a freshly found path
(`if len(path) < best_path_length`): strictly shorter replaces. -/
def updateBest : Option (List String) → List String → Option (List String)
  | none, p => some p
  | some b, p => if p.length < b.length then some p else some b

/-- The candidate-pair loop of `find_path`: same-unit pairs are skipped,
`NetworkXNoPath` is caught and skipped, `NodeNotFound` propagates. -/
def tryPairs (g : DiGraph) :
    List (String × String) → Option (List String) →
    Except NxErr (Option (List String))
  | [], best => .ok best
  | (s, t) :: rest, best =>
    if s = t then tryPairs g rest best
    else
      match shortest_path g s t with
      | .ok p => tryPairs g rest (updateBest best p)
      | .error .noPath => tryPairs g rest best
      | .error .nodeNotFound => .error .nodeNotFound

/-- The relation attached to a step: forward graph edge first, then the
reverse edge — in both cases with the STORED source/target direction. -/
def relFor (g : DiGraph) (node_id next_id : String) : Option Relation :=
  if g.has_edge node_id next_id then
    match g.edge_data node_id next_id with
    | some d => some { source_id := node_id, target_id := next_id,
                       type := d.type, reasoning := d.reasoning }
    | none => none
  else if g.has_edge next_id node_id then
    match g.edge_data next_id node_id with
    | some d => some { source_id := next_id, target_id := node_id,
                       type := d.type, reasoning := d.reasoning }
    | none => none
  else none

/-- The step-building loop of `find_path`: a path node whose id is not in
the vector index is silently skipped (`if not unit: continue`); the
relation of a kept node is computed against the next PATH node. -/
def buildSteps (table : List Row) (g : DiGraph) : List String → List LineageStep
  | [] => []
  | [n] =>
    match get_unit table n with
    | none => []
    | some u => [{ unit := u, relation_to_next := none }]
  | n :: next :: rest =>
    let tail := buildSteps table g (next :: rest)
    match get_unit table n with
    | none => tail
    | some u => { unit := u, relation_to_next := relFor g n next } :: tail

/-- `KnowledgeGraph.find_path`, with the two semantic-search result lists
supplied as oracle inputs. -/
def find_path (table : List Row) (g : DiGraph)
    (start_results end_results : List (AtomicUnit × ℚ)) :
    Except FPError (List LineageStep) :=
  match start_results, end_results with
  | [], _ => .error .noMatchStart
  | _ :: _, [] => .error .noMatchEnd
  | s0 :: _, e0 :: _ =>
    match tryPairs g (pairsOf start_results end_results) none with
    | .error _ => .error .nodeNotFound
    | .ok none =>
      .ok [{ unit := s0.1, relation_to_next := none },
           { unit := e0.1, relation_to_next := none }]
    | .ok (some best) => .ok (buildSteps table g best)

/- ------------------------------------------------------------------ -/
/- `get_conflicts` (`src/graph_engine.py` lines 287-322)               -/
/- ------------------------------------------------------------------ -/

/-- Modelled from the spec: `ConflictResult` of `src/model.py` (absent
from the sources). -/
structure ConflictResult where
  conflicting_unit : AtomicUnit
  relation : Option Relation
  explanation : String
deriving DecidableEq, Repr

/-- `rel.type in ("refutes", "contradicts")`. -/
def isConflictType (t : String) : Bool :=
  t == "refutes" || t == "contradicts"

/-- Stand-in for Python's `f"{score:.2f}"` float formatting, rendering the
rational score deterministically. -/
def fmtScore (q : ℚ) : String :=
  toString q.num ++ "/" ++ toString q.den

/-- The candidate loop of `get_conflicts` with its accumulator; the inner
`for rel ... break / else` is the first relation of conflicting type. -/
def conflictsLoop (rels : List Relation) :
    List (AtomicUnit × ℚ) → List ConflictResult → List ConflictResult
  | [], acc => acc
  | (unit, score) :: rest, acc =>
    if score < 1/2 then conflictsLoop rels rest acc
    else
      match (get_relations_for_unit rels unit.id).find?
          (fun r => isConflictType r.type) with
      | some rel =>
        conflictsLoop rels rest (acc ++
          [{ conflicting_unit := unit, relation := some rel,
             explanation := "This unit has a '" ++ rel.type ++
               "' relationship: " ++ rel.reasoning }])
      | none =>
        if score > 85/100 then
          conflictsLoop rels rest (acc ++
            [{ conflicting_unit := unit, relation := none,
               explanation := "Highly similar (score: " ++ fmtScore score ++
                 ") but potentially conflicting content" }])
        else conflictsLoop rels rest acc

/-- `KnowledgeGraph.get_conflicts`, with the limit-10 semantic search
results supplied as an oracle input. -/
def get_conflicts (rels : List Relation)
    (similar : List (AtomicUnit × ℚ)) : List ConflictResult :=
  conflictsLoop rels similar []

/-- Per-candidate description of `get_conflicts` as the specification
states it (§4.6): nothing below relevance 0.5; else the FIRST stored
refutes/contradicts relation touching the unit; else, above 0.85 only, a
relation-free result quoting the score.  Written from the spec's words,
to be compared with the source-translated `get_conflicts`. -/
def candidateConflictsSpec (rels : List Relation) :
    AtomicUnit × ℚ → List ConflictResult
  | (unit, score) =>
    if score < 1/2 then []
    else
      match (get_relations_for_unit rels unit.id).find?
          (fun r => isConflictType r.type) with
      | some rel =>
        [{ conflicting_unit := unit, relation := some rel,
           explanation := "This unit has a '" ++ rel.type ++
             "' relationship: " ++ rel.reasoning }]
      | none =>
        if score > 85/100 then
          [{ conflicting_unit := unit, relation := none,
             explanation := "Highly similar (score: " ++ fmtScore score ++
               ") but potentially conflicting content" }]
        else []

/- Concrete engine states used by the witnesses and counterexamples. -/

def rowA : Row := ⟨"a", "ca", "", 1, "t", []⟩

def rowB : Row := ⟨"b", "cb", "", 1, "t", []⟩

def unitA : AtomicUnit := ⟨"a", "ca", none, 1, []⟩

def unitB : AtomicUnit := ⟨"b", "cb", none, 1, []⟩

/-- A graph whose only stored edge points `"b" → "a"`. -/
def gRev : DiGraph := DiGraph.empty.add_edge "b" "a" ⟨"supports", "r"⟩

/-- Two isolated nodes, no edges. -/
def gIsolated : DiGraph := (DiGraph.empty.add_node "a").add_node "b"

def stRev : EngineState := ⟨[rowA, rowB], gRev, [⟨"b", "a", "supports", "r"⟩]⟩

def stDel2 : EngineState :=
  ⟨[rowA], DiGraph.empty,
   [⟨"b", "a", "supports", "r"⟩, ⟨"a", "c", "implies", "r2"⟩]⟩

def stDup : EngineState := ⟨[rowA, rowB], DiGraph.empty, []⟩

/- ------------------------------------------------------------------ -/
/- Walk theory: correctness of the shortest-path model                 -/
/- ------------------------------------------------------------------ -/

/-- An undirected walk from `s` to `t`: the list of visited nodes, with
consecutive nodes adjacent in the undirected view of the graph. -/
inductive Walk (g : DiGraph) : String → String → List String → Prop
  | single (s : String) : Walk g s s [s]
  | cons {s u t : String} {p : List String} (h : g.adjB s u = true)
      (hw : Walk g u t p) : Walk g s t (s :: p)

lemma Walk.ne_nil {g : DiGraph} {s t : String} {p : List String}
    (h : Walk g s t p) : p ≠ [] := by
  cases h <;> simp

lemma Walk.head? {g : DiGraph} {s t : String} {p : List String}
    (h : Walk g s t p) : p.head? = some s := by
  cases h <;> rfl

lemma Walk.getLast? {g : DiGraph} {s t : String} {p : List String}
    (h : Walk g s t p) : p.getLast? = some t := by
  induction h with
  | single s => rfl
  | cons hadj hw ih =>
    rw [List.getLast?_cons, ih]
    cases hw <;> simp_all [List.getLast?_cons]

lemma Walk.length_pos {g : DiGraph} {s t : String} {p : List String}
    (h : Walk g s t p) : 0 < p.length := by
  cases h <;> simp

lemma has_edge_mem {g : DiGraph} {u v : String}
    (h : g.has_edge u v = true) : u ∈ g.allNodes ∧ v ∈ g.allNodes := by
  rw [DiGraph.has_edge, List.any_eq_true] at h
  obtain ⟨e, he, hp⟩ := h
  rw [Bool.and_eq_true, beq_iff_eq, beq_iff_eq] at hp
  constructor <;>
  · rw [DiGraph.allNodes]
    refine List.mem_append_right _ (List.mem_flatMap.mpr ⟨e, he, ?_⟩)
    simp [hp.1, hp.2]

lemma adjB_mem {g : DiGraph} {u v : String}
    (h : g.adjB u v = true) : u ∈ g.allNodes ∧ v ∈ g.allNodes := by
  rw [DiGraph.adjB, Bool.or_eq_true] at h
  rcases h with h | h
  · exact has_edge_mem h
  · exact ⟨(has_edge_mem h).2, (has_edge_mem h).1⟩

lemma walk_snoc {g : DiGraph} {s u v : String} {q : List String}
    (h : Walk g s u q) (hadj : g.adjB u v = true) :
    Walk g s v (q ++ [v]) := by
  induction h with
  | single s => exact Walk.cons hadj (Walk.single v)
  | cons h hw ih => exact Walk.cons h (ih hadj)

lemma walk_snoc_inv {g : DiGraph} {s t : String} {p : List String}
    (h : Walk g s t p) :
    (p = [s] ∧ t = s) ∨
    ∃ q u, p = q ++ [t] ∧ Walk g s u q ∧ g.adjB u t = true := by
  induction h with
  | single s => exact Or.inl ⟨rfl, rfl⟩
  | @cons s u t p hadj hw ih =>
    rcases ih with ⟨hp, ht⟩ | ⟨q, w, hp, hwq, hadj'⟩
    · subst hp; subst ht
      exact Or.inr ⟨[s], s, rfl, Walk.single s, hadj⟩
    · subst hp
      exact Or.inr ⟨s :: q, w, rfl, Walk.cons hadj hwq, hadj'⟩

lemma mem_nbrs {g : DiGraph} {u v : String} :
    v ∈ g.nbrs u ↔ g.adjB u v = true := by
  rw [DiGraph.nbrs, List.mem_filter, List.mem_dedup]
  constructor
  · exact fun h => h.2
  · exact fun h => ⟨(adjB_mem h).2, h⟩

lemma mem_rwalks_sound {g : DiGraph} {s : String} :
    ∀ (k : Nat) (p : List String) (t : String), p ∈ rwalks g s k →
      p.head? = some t → Walk g s t p.reverse ∧ p.length = k + 1 := by
  intro k
  induction k with
  | zero =>
    intro p t hp ht
    rw [rwalks] at hp
    simp only [List.mem_singleton] at hp
    subst hp
    simp only [List.head?_cons, Option.some.injEq] at ht
    subst ht
    exact ⟨Walk.single s, rfl⟩
  | succ n ih =>
    intro p t hp ht
    rw [rwalks, List.mem_flatMap] at hp
    obtain ⟨q, hq, hpq⟩ := hp
    match q with
    | [] => simp at hpq
    | u :: q' =>
      rw [List.mem_map] at hpq
      obtain ⟨v, hv, rfl⟩ := hpq
      simp only [List.head?_cons, Option.some.injEq] at ht
      subst ht
      obtain ⟨hw, hlen⟩ := ih (u :: q') u hq rfl
      refine ⟨?_, by simp [← hlen]⟩
      rw [List.reverse_cons]
      exact walk_snoc hw (mem_nbrs.mp hv)

lemma rwalks_complete {g : DiGraph} :
    ∀ (n : Nat) (q : List String) (s t : String), Walk g s t q →
      q.length = n + 1 → q.reverse ∈ rwalks g s n := by
  intro n
  induction n with
  | zero =>
    intro q s t hw hlen
    rcases walk_snoc_inv hw with ⟨hq, _⟩ | ⟨q0, u, hq, hw0, _⟩
    · subst hq; simp [rwalks]
    · subst hq
      exfalso
      have h1 := hw0.length_pos
      have h2 : q0.length + 1 = 1 := by simpa using hlen
      omega
  | succ n ih =>
    intro q s t hw hlen
    rcases walk_snoc_inv hw with ⟨hq, _⟩ | ⟨q0, u, hq, hw0, hadj⟩
    · subst hq; simp at hlen
    · subst hq
      have hq0len : q0.length = n + 1 := by
        simp at hlen; omega
      have hmem := ih q0 s u hw0 hq0len
      rw [rwalks, List.mem_flatMap]
      refine ⟨q0.reverse, hmem, ?_⟩
      have hhead : q0.reverse.head? = some u := by
        rw [List.head?_reverse]; exact hw0.getLast?
      match hrev : q0.reverse with
      | [] => simp [hrev] at hhead
      | w :: r' =>
        rw [hrev] at hhead
        simp only [List.head?_cons, Option.some.injEq] at hhead
        subst hhead
        rw [List.mem_map]
        refine ⟨t, mem_nbrs.mpr ?_, by simp [← hrev]⟩
        exact hadj

lemma findWalk_sound {g : DiGraph} {s t : String} {k : Nat} {p : List String}
    (h : findWalk g s t k = some p) :
    Walk g s t p ∧ p.length = k + 1 := by
  rw [findWalk] at h
  match hf : (rwalks g s k).find? (fun p => decide (p.head? = some t)) with
  | none => rw [hf] at h; simp at h
  | some r =>
    rw [hf] at h
    simp only [Option.map_some', Option.some.injEq] at h
    subst h
    have hmem := List.mem_of_find?_eq_some hf
    have hpred := List.find?_some hf
    rw [decide_eq_true_eq] at hpred
    obtain ⟨hw, hlen⟩ := mem_rwalks_sound k r t hmem hpred
    exact ⟨hw, by simpa using hlen⟩

lemma findWalk_complete {g : DiGraph} {s t : String} {k : Nat}
    {q : List String} (hw : Walk g s t q) (hlen : q.length = k + 1) :
    ∃ p, findWalk g s t k = some p := by
  have hmem := rwalks_complete k q s t hw hlen
  have hhead : q.reverse.head? = some t := by
    rw [List.head?_reverse]; exact hw.getLast?
  have : ((rwalks g s k).find? (fun p => decide (p.head? = some t))).isSome := by
    rw [List.find?_isSome]
    exact ⟨q.reverse, hmem, by simp [hhead]⟩
  rw [Option.isSome_iff_exists] at this
  obtain ⟨r, hr⟩ := this
  exact ⟨r.reverse, by rw [findWalk, hr]; rfl⟩

lemma spSearch_sound {g : DiGraph} {s t : String} :
    ∀ {n : Nat} {p : List String}, spSearch g s t n = some p →
      ∃ k ≤ n, findWalk g s t k = some p ∧
        ∀ k' < k, findWalk g s t k' = none := by
  intro n
  induction n with
  | zero =>
    intro p h
    rw [spSearch] at h
    exact ⟨0, Nat.le_refl 0, h, fun k' hk' => absurd hk' (Nat.not_lt_zero k')⟩
  | succ n ih =>
    intro p h
    rw [spSearch] at h
    match hs : spSearch g s t n with
    | some q =>
      rw [hs] at h
      obtain ⟨k, hk, hf, hmin⟩ := ih hs
      cases h
      exact ⟨k, Nat.le_succ_of_le hk, hf, hmin⟩
    | none =>
      rw [hs] at h
      refine ⟨n + 1, Nat.le_refl _, h, ?_⟩
      intro k' hk'
      by_contra hne
      have hsome : ∃ r, findWalk g s t k' = some r := by
        cases hfw : findWalk g s t k' with
        | none => exact absurd hfw hne
        | some r => exact ⟨r, rfl⟩
      obtain ⟨r, hr⟩ := hsome
      -- but spSearch n = none means every fuel ≤ n failed
      have hall : ∀ m ≤ n, findWalk g s t m = none := by
        clear hr hk' ih h
        induction n with
        | zero =>
          intro m hm
          interval_cases m
          rw [spSearch] at hs
          exact hs
        | succ n' ih' =>
          intro m hm
          rw [spSearch] at hs
          match hs' : spSearch g s t n' with
          | some q' => rw [hs'] at hs; exact absurd hs (by simp)
          | none =>
            rw [hs'] at hs
            rcases Nat.lt_or_ge m (n' + 1) with hlt | hge
            · exact ih' hs' m (Nat.lt_succ_iff.mp hlt)
            · have : m = n' + 1 := Nat.le_antisymm hm hge
              subst this
              exact hs
      have := hall k' (Nat.lt_succ_iff.mp hk')
      rw [this] at hr
      exact absurd hr (by simp)

lemma spSearch_none {g : DiGraph} {s t : String} :
    ∀ {n : Nat}, spSearch g s t n = none →
      ∀ m ≤ n, findWalk g s t m = none := by
  intro n
  induction n with
  | zero =>
    intro h m hm
    interval_cases m
    rw [spSearch] at h
    exact h
  | succ n ih =>
    intro h m hm
    rw [spSearch] at h
    match hs : spSearch g s t n with
    | some q => rw [hs] at h; exact absurd h (by simp)
    | none =>
      rw [hs] at h
      rcases Nat.lt_or_ge m (n + 1) with hlt | hge
      · exact ih hs m (Nat.lt_succ_iff.mp hlt)
      · have : m = n + 1 := Nat.le_antisymm hm hge
        subst this
        exact h

/-- Any list that is not duplicate-free splits around a repeated element. -/
lemma exists_dup_decomp {l : List String} (h : ¬ l.Nodup) :
    ∃ (a : String) (l1 l2 l3 : List String),
      l = l1 ++ a :: l2 ++ a :: l3 := by
  induction l with
  | nil => exact absurd List.nodup_nil h
  | cons x xs ih =>
    by_cases hx : x ∈ xs
    · obtain ⟨l2, l3, hxs⟩ := List.append_of_mem hx
      exact ⟨x, [], l2, l3, by simp [hxs]⟩
    · have hxs : ¬ xs.Nodup := fun hnd => h (List.nodup_cons.mpr ⟨hx, hnd⟩)
      obtain ⟨a, l1, l2, l3, hdec⟩ := ih hxs
      exact ⟨a, x :: l1, l2, l3, by rw [hdec]; rfl⟩

/-- Inversion for a walk along a cons list. -/
lemma walk_cons_inv {g : DiGraph} {s t x : String} {rest : List String}
    (h : Walk g s t (x :: rest)) :
    s = x ∧ ((rest = [] ∧ t = x) ∨
      ∃ u, g.adjB x u = true ∧ Walk g u t rest) := by
  cases h with
  | single s => exact ⟨rfl, Or.inl ⟨rfl, rfl⟩⟩
  | cons hadj hw => exact ⟨rfl, Or.inr ⟨_, hadj, hw⟩⟩

/-- The walk suffix starting at an interior occurrence is itself a walk. -/
lemma walk_suffix {g : DiGraph} {t a : String} :
    ∀ (l1 : List String) {s : String} (l2 : List String),
      Walk g s t (l1 ++ a :: l2) → Walk g a t (a :: l2) := by
  intro l1
  induction l1 with
  | nil =>
    intro s l2 h
    have := h.head?
    simp only [List.nil_append, List.head?_cons, Option.some.injEq] at this
    subst this
    simpa using h
  | cons x l1' ih =>
    intro s l2 h
    rw [List.cons_append] at h
    obtain ⟨rfl, hcase⟩ := walk_cons_inv h
    rcases hcase with ⟨hnil, _⟩ | ⟨u, hadj, hw⟩
    · exact absurd hnil (by simp)
    · exact ih l2 hw

/-- Replacing the continuation after an interior occurrence by any walk
from that occurrence preserves walk-ness. -/
lemma walk_graft {g : DiGraph} {t t' a : String} :
    ∀ (l1 : List String) {s : String} (l2 q : List String),
      Walk g s t (l1 ++ a :: l2) →
      Walk g a t' (a :: q) → Walk g s t' (l1 ++ a :: q) := by
  intro l1
  induction l1 with
  | nil =>
    intro s l2 q h hq
    have := h.head?
    simp only [List.nil_append, List.head?_cons, Option.some.injEq] at this
    subst this
    simpa using hq
  | cons x l1' ih =>
    intro s l2 q h hq
    rw [List.cons_append] at h
    rw [List.cons_append]
    obtain ⟨rfl, hcase⟩ := walk_cons_inv h
    rcases hcase with ⟨hnil, _⟩ | ⟨u, hadj, hw⟩
    · exact absurd hnil (by simp)
    · exact Walk.cons hadj (ih l2 q hw hq)

/-- Any walk shortens to a duplicate-free walk between the same endpoints. -/
lemma walk_to_nodup {g : DiGraph} {s t : String} :
    ∀ (n : Nat) (p : List String), p.length ≤ n → Walk g s t p →
      ∃ q, Walk g s t q ∧ q.length ≤ p.length ∧ q.Nodup := by
  intro n
  induction n with
  | zero =>
    intro p hlen hw
    exact absurd (Nat.lt_of_lt_of_le hw.length_pos hlen) (by simp)
  | succ n ih =>
    intro p hlen hw
    by_cases hnd : p.Nodup
    · exact ⟨p, hw, Nat.le_refl _, hnd⟩
    · obtain ⟨a, l1, l2, l3, hdec⟩ := exists_dup_decomp hnd
      subst hdec
      have hsuf : Walk g a t (a :: l3) := by
        have h' : Walk g s t ((l1 ++ a :: l2) ++ a :: l3) := by
          simpa [List.append_assoc] using hw
        exact walk_suffix (l1 ++ a :: l2) l3 h'
      have hw2 : Walk g s t (l1 ++ a :: (l2 ++ a :: l3)) := by
        simpa [List.append_assoc] using hw
      have hshort : Walk g s t (l1 ++ a :: l3) :=
        walk_graft l1 (l2 ++ a :: l3) l3 hw2 hsuf
      have hlt : (l1 ++ a :: l3).length < (l1 ++ a :: l2 ++ a :: l3).length := by
        simp [List.length_append]
        omega
      obtain ⟨q, hq, hqlen, hqnd⟩ :=
        ih (l1 ++ a :: l3) (by omega) hshort
      exact ⟨q, hq, Nat.le_of_lt (Nat.lt_of_le_of_lt hqlen hlt), hqnd⟩

/-- Every node visited by a walk whose start is a graph node is a graph
node. -/
lemma walk_mem_allNodes {g : DiGraph} {s t : String} {p : List String}
    (hw : Walk g s t p) (hs : s ∈ g.allNodes) :
    ∀ x ∈ p, x ∈ g.allNodes := by
  induction hw with
  | single s => intro x hx; simp at hx; subst hx; exact hs
  | @cons s u t p hadj hw ih =>
    intro x hx
    rcases List.mem_cons.mp hx with rfl | hx
    · exact hs
    · exact ih (adjB_mem hadj).2 x hx

/-- A duplicate-free walk cannot have more nodes than the graph. -/
lemma nodup_walk_length_le {g : DiGraph} {s t : String} {q : List String}
    (hw : Walk g s t q) (hnd : q.Nodup) (hs : s ∈ g.allNodes) :
    q.length ≤ g.allNodes.dedup.length := by
  have hsub : ∀ x ∈ q, x ∈ g.allNodes.dedup := by
    intro x hx
    exact List.mem_dedup.mpr (walk_mem_allNodes hw hs x hx)
  have h1 : q.toFinset.card = q.length := List.toFinset_card_of_nodup hnd
  have h2 : g.allNodes.dedup.toFinset.card = g.allNodes.dedup.length :=
    List.toFinset_card_of_nodup (List.nodup_dedup _)
  have hsubF : q.toFinset ⊆ g.allNodes.dedup.toFinset := by
    intro x hx
    rw [List.mem_toFinset] at hx ⊢
    exact hsub x hx
  calc q.length = q.toFinset.card := h1.symm
    _ ≤ g.allNodes.dedup.toFinset.card := Finset.card_le_card hsubF
    _ = g.allNodes.dedup.length := h2

/-- Soundness: a returned path is a walk between the endpoints. -/
lemma sp_ok_walk {g : DiGraph} {s t : String} {p : List String}
    (h : shortest_path g s t = .ok p) : Walk g s t p := by
  rw [shortest_path] at h
  split at h
  · match hs : spSearch g s t g.allNodes.dedup.length with
    | some q =>
      rw [hs] at h
      cases h
      obtain ⟨k, _, hf, _⟩ := spSearch_sound hs
      exact (findWalk_sound hf).1
    | none => rw [hs] at h; exact absurd h (by simp)
  · exact absurd h (by simp)

/-- Minimality: a returned path has no more nodes than any walk between
the endpoints. -/
lemma sp_ok_min {g : DiGraph} {s t : String} {p : List String}
    (h : shortest_path g s t = .ok p) :
    ∀ q, Walk g s t q → p.length ≤ q.length := by
  intro q hq
  rw [shortest_path] at h
  split at h
  case isTrue hmem =>
    match hs : spSearch g s t g.allNodes.dedup.length with
    | some r =>
      rw [hs] at h
      cases h
      obtain ⟨k, hk, hf, hmin⟩ := spSearch_sound hs
      have hplen := (findWalk_sound hf).2
      by_contra hgt
      push_neg at hgt
      -- q is a strictly shorter walk: its length is m + 1 with m < k
      obtain ⟨m, hm⟩ : ∃ m, q.length = m + 1 :=
        ⟨q.length - 1, by have := hq.length_pos; omega⟩
      have hmk : m < k := by omega
      obtain ⟨r', hr'⟩ := findWalk_complete hq hm
      rw [hmin m hmk] at hr'
      exact absurd hr' (by simp)
    | none => rw [hs] at h; exact absurd h (by simp)
  case isFalse => exact absurd h (by simp)

/-- Completeness: if both endpoints are graph nodes and some walk
connects them, `shortest_path` finds a path. -/
lemma sp_complete {g : DiGraph} {s t : String} {q : List String}
    (hs : s ∈ g.allNodes) (ht : t ∈ g.allNodes) (hq : Walk g s t q) :
    ∃ p, shortest_path g s t = .ok p := by
  obtain ⟨q', hq', hqlen, hqnd⟩ := walk_to_nodup q.length q (Nat.le_refl _) hq
  have hbound : q'.length ≤ g.allNodes.dedup.length :=
    nodup_walk_length_le hq' hqnd hs
  obtain ⟨m, hm⟩ : ∃ m, q'.length = m + 1 :=
    ⟨q'.length - 1, by have := hq'.length_pos; omega⟩
  have hmle : m ≤ g.allNodes.dedup.length := by omega
  obtain ⟨r, hr⟩ := findWalk_complete hq' hm
  rw [shortest_path, if_pos ⟨hs, ht⟩]
  match hsp : spSearch g s t g.allNodes.dedup.length with
  | some p => exact ⟨p, rfl⟩
  | none =>
    have := spSearch_none hsp m hmle
    rw [this] at hr
    exact absurd hr (by simp)

/-- A `NetworkXNoPath` outcome means no walk connects the endpoints. -/
lemma sp_noPath {g : DiGraph} {s t : String}
    (h : shortest_path g s t = .error .noPath) :
    ∀ q, ¬ Walk g s t q := by
  intro q hq
  rw [shortest_path] at h
  split at h
  case isTrue hmem =>
    obtain ⟨p, hp⟩ := sp_complete hmem.1 hmem.2 hq
    rw [shortest_path, if_pos hmem] at hp
    match hsp : spSearch g s t g.allNodes.dedup.length with
    | some r => rw [hsp] at h; exact absurd h (by simp)
    | none => rw [hsp] at hp; exact absurd hp (by simp)
  case isFalse => exact absurd h (by simp)

/-- A `NodeNotFound` outcome occurs exactly when an endpoint is missing
from the graph. -/
lemma sp_nodeNotFound {g : DiGraph} {s t : String} :
    shortest_path g s t = .error .nodeNotFound ↔
      ¬ (s ∈ g.allNodes ∧ t ∈ g.allNodes) := by
  rw [shortest_path]
  split
  case isTrue hmem =>
    match hsp : spSearch g s t g.allNodes.dedup.length with
    | some r => simp [hmem]
    | none => simp [hmem]
  case isFalse hmem => simp [hmem]

/- ------------------------------------------------------------------ -/
/- Properties of the candidate-pair loop                               -/
/- ------------------------------------------------------------------ -/

lemma updateBest_isSome (best : Option (List String)) (p : List String) :
    ∃ b, updateBest best p = some b := by
  match best with
  | none => exact ⟨p, rfl⟩
  | some b0 =>
    rw [updateBest]
    split
    · exact ⟨p, rfl⟩
    · exact ⟨b0, rfl⟩

lemma updateBest_le {best : Option (List String)} {p b : List String}
    (h : updateBest best p = some b) : b.length ≤ p.length := by
  match best with
  | none => cases h; exact Nat.le_refl _
  | some b0 =>
    rw [updateBest] at h
    split at h <;> cases h
    · exact Nat.le_refl _
    · omega

lemma updateBest_le_acc {b0 p b : List String}
    (h : updateBest (some b0) p = some b) : b.length ≤ b0.length := by
  rw [updateBest] at h
  split at h <;> cases h
  · omega
  · exact Nat.le_refl _

/-- The accumulator's length never increases along the loop. -/
lemma tryPairs_acc_mono {g : DiGraph} :
    ∀ (pairs : List (String × String)) (b0 : List String)
      (r : Option (List String)),
      tryPairs g pairs (some b0) = .ok r →
      ∃ b, r = some b ∧ b.length ≤ b0.length := by
  intro pairs
  induction pairs with
  | nil =>
    intro b0 r h
    rw [tryPairs] at h
    cases h
    exact ⟨b0, rfl, Nat.le_refl _⟩
  | cons pr rest ih =>
    intro b0 r h
    obtain ⟨s, t⟩ := pr
    rw [tryPairs] at h
    split at h
    · exact ih b0 r h
    · match hsp : shortest_path g s t with
      | .ok p =>
        simp only [hsp] at h
        obtain ⟨b1, hub⟩ := updateBest_isSome (some b0) p
        rw [hub] at h
        obtain ⟨b, hb, hble⟩ := ih b1 r h
        exact ⟨b, hb, Nat.le_trans hble (updateBest_le_acc hub)⟩
      | .error .noPath =>
        simp only [hsp] at h
        exact ih b0 r h
      | .error .nodeNotFound =>
        simp only [hsp] at h
        exact absurd h (by simp)

/-- Global minimality: any walk between a considered pair bounds the
loop's final best path from above (and forces a best path to exist). -/
lemma tryPairs_min {g : DiGraph} :
    ∀ (pairs : List (String × String)) (acc r : Option (List String)),
      tryPairs g pairs acc = .ok r →
      ∀ pr ∈ pairs, pr.1 ≠ pr.2 → ∀ q, Walk g pr.1 pr.2 q →
        ∃ b, r = some b ∧ b.length ≤ q.length := by
  intro pairs
  induction pairs with
  | nil => intro acc r h pr hpr; simp at hpr
  | cons pr0 rest ih =>
    intro acc r h pr hpr hne q hq
    obtain ⟨s, t⟩ := pr0
    rw [tryPairs] at h
    rcases List.mem_cons.mp hpr with rfl | hmem
    · -- the pair at the head of the loop
      replace hne : s ≠ t := by simpa using hne
      replace hq : Walk g s t q := hq
      rw [if_neg hne] at h
      match hsp : shortest_path g s t with
      | .ok p =>
        simp only [hsp] at h
        have hpq : p.length ≤ q.length := sp_ok_min hsp q hq
        obtain ⟨b1, hub⟩ := updateBest_isSome acc p
        rw [hub] at h
        obtain ⟨b, hb, hble⟩ := tryPairs_acc_mono rest b1 r h
        exact ⟨b, hb, by have := updateBest_le hub; omega⟩
      | .error .noPath =>
        exact absurd hq (sp_noPath hsp q)
      | .error .nodeNotFound =>
        simp only [hsp] at h
        exact absurd h (by simp)
    · -- a pair further down: handle each head outcome and recurse
      split at h
      · exact ih acc r h pr hmem hne q hq
      · match hsp : shortest_path g s t with
        | .ok p =>
          simp only [hsp] at h
          exact ih (updateBest acc p) r h pr hmem hne q hq
        | .error .noPath =>
          simp only [hsp] at h
          exact ih acc r h pr hmem hne q hq
        | .error .nodeNotFound =>
          simp only [hsp] at h
          exact absurd h (by simp)

/-- The loop never returns normally past a pair whose `shortest_path`
call would raise `NodeNotFound`. -/
lemma tryPairs_no_notFound {g : DiGraph} :
    ∀ (pairs : List (String × String)) (acc r : Option (List String)),
      tryPairs g pairs acc = .ok r →
      ∀ pr ∈ pairs, pr.1 ≠ pr.2 →
        shortest_path g pr.1 pr.2 ≠ .error .nodeNotFound := by
  intro pairs
  induction pairs with
  | nil => intro acc r h pr hpr; simp at hpr
  | cons pr0 rest ih =>
    intro acc r h pr hpr hne
    obtain ⟨s, t⟩ := pr0
    rw [tryPairs] at h
    rcases List.mem_cons.mp hpr with rfl | hmem
    · replace hne : s ≠ t := by simpa using hne
      rw [if_neg hne] at h
      intro hsp
      simp only [hsp] at h
      exact absurd h (by simp)
    · split at h
      · exact ih acc r h pr hmem hne
      · match hsp : shortest_path g s t with
        | .ok p => simp only [hsp] at h; exact ih _ r h pr hmem hne
        | .error .noPath => simp only [hsp] at h; exact ih acc r h pr hmem hne
        | .error .nodeNotFound => simp only [hsp] at h; exact absurd h (by simp)

/-- Origin and tie-break: a best path returned by the loop either came in
as the accumulator or is the `shortest_path` result of the first
considered pair achieving its length; every considered pair before it
either had no path or a strictly longer one. -/
lemma tryPairs_origin {g : DiGraph} :
    ∀ (pairs : List (String × String)) (acc : Option (List String))
      (best : List String),
      tryPairs g pairs acc = .ok (some best) →
      acc = some best ∨
      ∃ (i : Nat) (hi : i < pairs.length),
        (pairs.get ⟨i, hi⟩).1 ≠ (pairs.get ⟨i, hi⟩).2 ∧
        shortest_path g (pairs.get ⟨i, hi⟩).1 (pairs.get ⟨i, hi⟩).2 = .ok best ∧
        (∀ b0, acc = some b0 → best.length < b0.length) ∧
        (∀ (j : Nat) (hj : j < pairs.length), j < i →
          (pairs.get ⟨j, hj⟩).1 ≠ (pairs.get ⟨j, hj⟩).2 →
          ∀ p, shortest_path g (pairs.get ⟨j, hj⟩).1 (pairs.get ⟨j, hj⟩).2
            = .ok p → best.length < p.length) := by
  intro pairs
  induction pairs with
  | nil =>
    intro acc best h
    rw [tryPairs] at h
    cases h
    exact Or.inl rfl
  | cons pr0 rest ih =>
    intro acc best h
    obtain ⟨s, t⟩ := pr0
    rw [tryPairs] at h
    by_cases hst : s = t
    · rw [if_pos hst] at h
      rcases ih acc best h with hacc | ⟨i, hi, hne, hsp, haccb, hprev⟩
      · exact Or.inl hacc
      · refine Or.inr ⟨i + 1, by simpa using Nat.succ_lt_succ hi,
          hne, hsp, haccb, ?_⟩
        intro j hj hji hjne p hjp
        match j with
        | 0 => exact absurd hst (by simpa using hjne)
        | j' + 1 =>
          exact hprev j' (by simpa using Nat.lt_of_succ_lt_succ hj)
            (Nat.lt_of_succ_lt_succ hji) hjne p hjp
    · rw [if_neg hst] at h
      match hsp : shortest_path g s t with
      | .ok p =>
        simp only [hsp] at h
        rcases ih (updateBest acc p) best h with
          hacc | ⟨i, hi, hne, hspi, haccb, hprev⟩
        · -- the best path came out of `updateBest acc p`
          match acc with
          | none =>
            cases hacc
            exact Or.inr ⟨0, by simp, hst, hsp, by simp, by omega⟩
          | some b0 =>
            rw [updateBest] at hacc
            split at hacc
            case isTrue hlt =>
              cases hacc
              refine Or.inr ⟨0, by simp, hst, hsp, ?_, by omega⟩
              intro b0' hb0'
              cases hb0'
              exact hlt
            case isFalse hge =>
              cases hacc
              exact Or.inl rfl
        · -- the best path came from a later pair
          refine Or.inr ⟨i + 1, by simpa using Nat.succ_lt_succ hi,
            hne, hspi, ?_, ?_⟩
          · intro b0 hb0
            subst hb0
            obtain ⟨b1, hub⟩ := updateBest_isSome (some b0) p
            have h1 := haccb b1 hub
            have h2 := updateBest_le_acc hub
            omega
          · intro j hj hji hjne p' hjp
            match j with
            | 0 =>
              -- the head pair itself: its path is `p`
              have hjp0 : shortest_path g s t = Except.ok p' := hjp
              have hpp' : p = p' := by
                rw [hsp] at hjp0
                simpa using hjp0
              subst hpp'
              obtain ⟨b1, hub⟩ := updateBest_isSome acc p
              have h1 := haccb b1 hub
              have h2 := updateBest_le hub
              omega
            | j' + 1 =>
              exact hprev j' (by simpa using Nat.lt_of_succ_lt_succ hj)
                (Nat.lt_of_succ_lt_succ hji) hjne p' hjp
      | .error .noPath =>
        simp only [hsp] at h
        rcases ih acc best h with hacc | ⟨i, hi, hne, hspi, haccb, hprev⟩
        · exact Or.inl hacc
        · refine Or.inr ⟨i + 1, by simpa using Nat.succ_lt_succ hi,
            hne, hspi, haccb, ?_⟩
          intro j hj hji hjne p' hjp
          match j with
          | 0 =>
            have hjp0 : shortest_path g s t = Except.ok p' := hjp
            rw [hjp0] at hsp
            exact absurd hsp (by simp)
          | j' + 1 =>
            exact hprev j' (by simpa using Nat.lt_of_succ_lt_succ hj)
              (Nat.lt_of_succ_lt_succ hji) hjne p' hjp
      | .error .nodeNotFound =>
        simp only [hsp] at h
        exact absurd h (by simp)

/-- When every considered pair is disconnected (but present), the loop
terminates normally without a best path. -/
lemma sp_error_noPath_of_no_walk {g : DiGraph} {s t : String}
    (hs : s ∈ g.allNodes) (ht : t ∈ g.allNodes)
    (hnw : ∀ q, ¬ Walk g s t q) :
    shortest_path g s t = .error .noPath := by
  rw [shortest_path, if_pos ⟨hs, ht⟩]
  match hsp : spSearch g s t g.allNodes.dedup.length with
  | some p =>
    exfalso
    obtain ⟨k, _, hf, _⟩ := spSearch_sound hsp
    exact hnw p (findWalk_sound hf).1
  | none => rfl

lemma tryPairs_ok_none_of_no_walk {g : DiGraph} :
    ∀ (pairs : List (String × String)),
      (∀ pr ∈ pairs, pr.1 ≠ pr.2 →
        pr.1 ∈ g.allNodes ∧ pr.2 ∈ g.allNodes) →
      (∀ pr ∈ pairs, pr.1 ≠ pr.2 → ∀ q, ¬ Walk g pr.1 pr.2 q) →
      tryPairs g pairs none = .ok none := by
  intro pairs
  induction pairs with
  | nil => intro _ _; rfl
  | cons pr0 rest ih =>
    intro hmem hnw
    obtain ⟨s, t⟩ := pr0
    rw [tryPairs]
    by_cases hst : s = t
    · rw [if_pos hst]
      exact ih (fun pr hpr => hmem pr (List.mem_cons_of_mem _ hpr))
        (fun pr hpr => hnw pr (List.mem_cons_of_mem _ hpr))
    · rw [if_neg hst]
      have hm := hmem (s, t) (List.mem_cons_self _ _) hst
      have hw := hnw (s, t) (List.mem_cons_self _ _) hst
      rw [sp_error_noPath_of_no_walk hm.1 hm.2 hw]
      exact ih (fun pr hpr => hmem pr (List.mem_cons_of_mem _ hpr))
        (fun pr hpr => hnw pr (List.mem_cons_of_mem _ hpr))

/- ------------------------------------------------------------------ -/
/- Support lemmas for the claim theorems                               -/
/- ------------------------------------------------------------------ -/

lemma get_unit_id {table : List Row} {n : String} {u : AtomicUnit}
    (h : get_unit table n = some u) : u.id = n := by
  rw [get_unit] at h
  match hf : table.find? (fun r => r.id == n) with
  | none => simp [hf] at h
  | some row =>
    simp only [hf, Option.some.injEq] at h
    have hp := List.find?_some hf
    rw [beq_iff_eq] at hp
    rw [← h]
    exact hp

lemma find?_append_of_none {α : Type} {p : α → Bool} {l1 l2 : List α}
    (h : l1.find? p = none) : (l1 ++ l2).find? p = l2.find? p := by
  induction l1 with
  | nil => rfl
  | cons x xs ih =>
    cases hp : p x with
    | true =>
      rw [List.find?_cons_of_pos _ hp] at h
      exact absurd h (by simp)
    | false =>
      rw [List.find?_cons_of_neg _ (by simp [hp])] at h
      rw [List.cons_append, List.find?_cons_of_neg _ (by simp [hp])]
      exact ih h

/- ------------------------------------------------------------------ -/
/- C3: add_proposition / get_unit round trip                           -/
/- ------------------------------------------------------------------ -/

/-- C3, counterexample: `add_proposition` called with the EMPTY-STRING
source yields a unit that `get_unit` reads back with an ABSENT source —
the stored row flattens `""` and `None` alike to `""`, and `get_unit`
maps `""` back to `None`.  So the returned `source` is not identical to
the supplied one at `source = ""`. -/
theorem add_proposition_empty_source_counterexample :
    (get_unit (add_proposition ⟨[], DiGraph.empty, []⟩ "claim" (some "") 1
        none "u1" [] "t0").1.table "u1")
      = some { id := "u1", content := "claim", source_doi := none,
               confidence := 1, vector := [] } ∧
    (none : Option String) ≠ some "" := by
  exact ⟨by decide, by decide⟩

/-- C3 (amended): immediately after `add_proposition(content, source,
confidence)` with a fresh generated id, `get_unit` returns a unit with
identical `content` and `confidence`; the `source` is identical unless it
was the empty string, which reads back as absent. -/
theorem add_proposition_get_unit_roundtrip (st : EngineState)
    (content : String) (src : Option String) (conf : ℚ) (gen_id : String)
    (vec : List ℚ) (created : String)
    (hfresh : ∀ r ∈ st.table, r.id ≠ gen_id) :
    get_unit (add_proposition st content src conf none gen_id vec
        created).1.table gen_id
      = some { id := gen_id, content := content,
               source_doi := if src = some "" then none else src,
               confidence := conf, vector := vec } := by
  have htab : (add_proposition st content src conf none gen_id vec
      created).1.table
      = st.table ++ [(⟨gen_id, content, src.getD "", conf, created, vec⟩ : Row)] := rfl
  rw [get_unit, htab]
  have hnone : st.table.find? (fun r => r.id == gen_id) = none := by
    rw [List.find?_eq_none]
    intro r hr
    simp only [beq_iff_eq]
    exact hfresh r hr
  rw [find?_append_of_none hnone]
  rw [List.find?_cons_of_pos _ (by simp)]
  match src with
  | none => simp
  | some s =>
    by_cases hs : s = ""
    · subst hs; simp
    · simp [Option.getD, hs]

/-- C3 (amended), witness at a concrete input. -/
theorem add_proposition_get_unit_roundtrip_witness :
    (∀ r ∈ ([] : List Row), r.id ≠ "u1") ∧
    get_unit (add_proposition ⟨[], DiGraph.empty, []⟩ "water is wet"
        (some "doi") (9/10) none "u1" [] "t0").1.table "u1"
      = some { id := "u1", content := "water is wet",
               source_doi := if some "doi" = some "" then none
                             else some "doi",
               confidence := 9/10, vector := [] } :=
  ⟨by simp, add_proposition_get_unit_roundtrip ⟨[], DiGraph.empty, []⟩
    "water is wet" (some "doi") (9/10) "u1" [] "t0" (by simp)⟩

/- ------------------------------------------------------------------ -/
/- C4: connect_concepts with a missing endpoint                        -/
/- ------------------------------------------------------------------ -/

/-- C4: when either endpoint does not resolve via `get_unit`,
`connect_concepts` fails with a not-found error naming the missing id and
leaves the state (graph, relation store and table) unchanged. -/
theorem connect_concepts_missing_unit (st : EngineState)
    (source_id target_id relation_type reasoning : String)
    (h : get_unit st.table source_id = none ∨
         get_unit st.table target_id = none) :
    (connect_concepts st source_id target_id relation_type reasoning).1 = st ∧
    ((get_unit st.table source_id = none ∧
      (connect_concepts st source_id target_id relation_type reasoning).2
        = .error ("Source unit not found: " ++ source_id)) ∨
     (get_unit st.table source_id ≠ none ∧
      get_unit st.table target_id = none ∧
      (connect_concepts st source_id target_id relation_type reasoning).2
        = .error ("Target unit not found: " ++ target_id))) := by
  match hs : get_unit st.table source_id with
  | none =>
    refine ⟨?_, Or.inl ⟨rfl, ?_⟩⟩ <;> simp [connect_concepts, hs]
  | some u =>
    match ht : get_unit st.table target_id with
    | none =>
      refine ⟨?_, Or.inr ⟨by simp, rfl, ?_⟩⟩ <;>
        simp [connect_concepts, hs, ht]
    | some v =>
      rcases h with h | h
      · rw [hs] at h; exact absurd h (by simp)
      · rw [ht] at h; exact absurd h (by simp)

/-- C4, witness at a concrete input (empty engine, both ids missing). -/
theorem connect_concepts_missing_unit_witness :
    (get_unit ([] : List Row) "a" = none ∨
     get_unit ([] : List Row) "b" = none) ∧
    ((connect_concepts ⟨[], DiGraph.empty, []⟩ "a" "b" "supports" "r").1
        = ⟨[], DiGraph.empty, []⟩ ∧
     ((get_unit ([] : List Row) "a" = none ∧
       (connect_concepts ⟨[], DiGraph.empty, []⟩ "a" "b" "supports" "r").2
         = .error ("Source unit not found: " ++ "a")) ∨
      (get_unit ([] : List Row) "a" ≠ none ∧
       get_unit ([] : List Row) "b" = none ∧
       (connect_concepts ⟨[], DiGraph.empty, []⟩ "a" "b" "supports" "r").2
         = .error ("Target unit not found: " ++ "b")))) :=
  ⟨Or.inl rfl,
   connect_concepts_missing_unit ⟨[], DiGraph.empty, []⟩ "a" "b" "supports"
     "r" (Or.inl rfl)⟩

/- ------------------------------------------------------------------ -/
/- C5 and C10: delete_unit                                             -/
/- ------------------------------------------------------------------ -/

lemma length_sub_filter_not (l : List Relation) (p : Relation → Bool) :
    l.length - (l.filter (fun r => !(p r))).length = (l.filter p).length := by
  induction l with
  | nil => rfl
  | cons r rest ih =>
    have hle : (rest.filter (fun x => !(p x))).length ≤ rest.length :=
      List.length_filter_le _ _
    cases hp : p r <;> simp [List.filter_cons, hp] <;> omega

lemma keep_filter_eq_not_touch (rels : List Relation) (uid : String) :
    rels.filter (fun r => r.source_id != uid && r.target_id != uid)
      = rels.filter (fun r => !(r.source_id == uid || r.target_id == uid)) := by
  apply List.filter_congr
  intro r _
  rw [Bool.not_or]
  rfl

/-- C5: after a successful `delete_unit(id)`, `get_unit(id)` is absent and
the relation store holds no relation with that id as either endpoint, so
`list_for_unit(id)` is empty. -/
theorem delete_unit_removes_everything (st : EngineState) (uid : String)
    (rpt : DeleteReport) (h : (delete_unit st uid).2 = .ok rpt) :
    get_unit (delete_unit st uid).1.table uid = none ∧
    get_relations_for_unit (delete_unit st uid).1.relations uid = [] := by
  match hu : get_unit st.table uid with
  | none => rw [delete_unit] at h; simp only [hu] at h; exact absurd h (by simp)
  | some unit =>
    have hst : (delete_unit st uid).1
        = { table := st.table.filter (fun r => r.id != uid),
            graph := if st.graph.has_node uid
                     then st.graph.remove_node uid else st.graph,
            relations := st.relations.filter
              (fun r => r.source_id != uid && r.target_id != uid) } := by
      rw [delete_unit]
      simp only [hu]
      rfl
    rw [hst]
    constructor
    · rw [get_unit]
      have : (st.table.filter (fun r => r.id != uid)).find?
          (fun r => r.id == uid) = none := by
        rw [List.find?_eq_none]
        intro r hr
        have := (List.mem_filter.mp hr).2
        simp only [bne_iff_ne, ne_eq] at this
        simp [this]
      rw [this]
    · rw [get_relations_for_unit, List.filter_eq_nil_iff]
      intro r hr
      have hkeep := (List.mem_filter.mp hr).2
      rw [Bool.and_eq_true] at hkeep
      obtain ⟨h1, h2⟩ := hkeep
      simp only [bne_iff_ne, ne_eq] at h1 h2
      simp [h1, h2]

/-- C5, witness at a concrete input. -/
theorem delete_unit_removes_everything_witness :
    ((delete_unit stRev "a").2 = .ok ⟨"a", "ca", none, 1, 1⟩) ∧
    (get_unit (delete_unit stRev "a").1.table "a" = none ∧
     get_relations_for_unit (delete_unit stRev "a").1.relations "a" = []) :=
  ⟨by rfl,
   delete_unit_removes_everything stRev "a" ⟨"a", "ca", none, 1, 1⟩ (by rfl)⟩

/-- C10: on success, the report's `deleted_relations_count` equals its
`connections_removed`, both counting the stored relations touching the
deleted id at call time. -/
theorem delete_unit_report_counts (st : EngineState) (uid : String)
    (rpt : DeleteReport) (h : (delete_unit st uid).2 = .ok rpt) :
    rpt.deleted_relations_count = rpt.connections_removed ∧
    rpt.connections_removed
      = (get_relations_for_unit st.relations uid).length := by
  match hu : get_unit st.table uid with
  | none => rw [delete_unit] at h; simp only [hu] at h; exact absurd h (by simp)
  | some unit =>
    rw [delete_unit] at h
    simp only [hu, Except.ok.injEq] at h
    subst h
    refine ⟨?_, rfl⟩
    show (delete_relations_for_unit st.relations uid).2
      = (get_relations_for_unit st.relations uid).length
    have hdel : (delete_relations_for_unit st.relations uid).2
        = st.relations.length - (st.relations.filter
            (fun r => r.source_id != uid && r.target_id != uid)).length := rfl
    rw [hdel, keep_filter_eq_not_touch,
      length_sub_filter_not st.relations
        (fun r => r.source_id == uid || r.target_id == uid)]
    rfl

/-- C10, witness at a concrete input. -/
theorem delete_unit_report_counts_witness :
    ((delete_unit stDel2 "a").2 = .ok ⟨"a", "ca", none, 2, 2⟩) ∧
    ((⟨"a", "ca", none, 2, 2⟩ : DeleteReport).deleted_relations_count
      = (⟨"a", "ca", none, 2, 2⟩ : DeleteReport).connections_removed ∧
     (⟨"a", "ca", none, 2, 2⟩ : DeleteReport).connections_removed
      = (get_relations_for_unit stDel2.relations "a").length) :=
  ⟨by rfl,
   delete_unit_report_counts stDel2 "a" ⟨"a", "ca", none, 2, 2⟩ (by rfl)⟩

/- ------------------------------------------------------------------ -/
/- C8: no de-duplication of identical relations                        -/
/- ------------------------------------------------------------------ -/

/-- C8: two `connect_concepts` calls with identical arguments on existing
units append two (equal) relations to the store — no de-duplication. -/
theorem connect_concepts_no_dedup (st : EngineState)
    (sid tid ty rsn : String)
    (h1 : (get_unit st.table sid).isSome)
    (h2 : (get_unit st.table tid).isSome) :
    ((connect_concepts (connect_concepts st sid tid ty rsn).1
        sid tid ty rsn).1).relations
      = st.relations ++ [⟨sid, tid, ty, rsn⟩, ⟨sid, tid, ty, rsn⟩] := by
  obtain ⟨u, hu⟩ := Option.isSome_iff_exists.mp h1
  obtain ⟨v, hv⟩ := Option.isSome_iff_exists.mp h2
  have hfirst : (connect_concepts st sid tid ty rsn).1
      = { st with
          graph := st.graph.add_edge sid tid ⟨ty, rsn⟩,
          relations := st.relations ++ [⟨sid, tid, ty, rsn⟩] } := by
    rw [connect_concepts]
    simp only [hu, hv]
  rw [connect_concepts, hfirst]
  simp only [hu, hv]
  simp [List.append_assoc]

/-- C8, witness at a concrete input. -/
theorem connect_concepts_no_dedup_witness :
    ((get_unit stDup.table "a").isSome) ∧
    ((get_unit stDup.table "b").isSome) ∧
    ((connect_concepts (connect_concepts stDup "a" "b" "implies" "why").1
        "a" "b" "implies" "why").1).relations
      = stDup.relations ++
        [⟨"a", "b", "implies", "why"⟩, ⟨"a", "b", "implies", "why"⟩] :=
  ⟨by decide, by decide,
   connect_concepts_no_dedup stDup "a" "b" "implies" "why"
     (by decide) (by decide)⟩

/- ------------------------------------------------------------------ -/
/- C9: path nodes missing from the vector index are skipped            -/
/- ------------------------------------------------------------------ -/

/-- C9: the steps built from a winning path are exactly the path nodes
whose id resolves in the vector index, in order — a node with no record
is silently omitted, so the output can be shorter than the path and
consecutive steps need not be adjacent in the graph. -/
theorem buildSteps_skips_missing_units (table : List Row) (g : DiGraph)
    (path : List String) :
    (buildSteps table g path).map (fun step => step.unit.id)
      = path.filter (fun n => (get_unit table n).isSome) := by
  induction path with
  | nil => rfl
  | cons n rest ih =>
    match rest with
    | [] =>
      match hu : get_unit table n with
      | none => simp [buildSteps, hu]
      | some u => simp [buildSteps, hu, get_unit_id hu]
    | next :: rest' =>
      match hu : get_unit table n with
      | none =>
        rw [buildSteps]
        simp only [hu]
        rw [ih]
        simp [List.filter_cons, hu]
      | some u =>
        rw [buildSteps]
        simp only [hu]
        rw [List.map_cons, ih]
        simp [List.filter_cons, hu, get_unit_id hu]

/- ------------------------------------------------------------------ -/
/- C7: per-candidate behavior of get_conflicts                         -/
/- ------------------------------------------------------------------ -/

lemma candidateConflictsSpec_low {rels : List Relation} {unit : AtomicUnit}
    {score : ℚ} (hlow : score < 1/2) :
    candidateConflictsSpec rels (unit, score) = [] := by
  rw [candidateConflictsSpec, if_pos hlow]

lemma candidateConflictsSpec_found {rels : List Relation}
    {unit : AtomicUnit} {score : ℚ} {rel : Relation}
    (hlow : ¬ score < 1/2)
    (hfind : (get_relations_for_unit rels unit.id).find?
      (fun r => isConflictType r.type) = some rel) :
    candidateConflictsSpec rels (unit, score)
      = [{ conflicting_unit := unit, relation := some rel,
           explanation := "This unit has a '" ++ rel.type ++
             "' relationship: " ++ rel.reasoning }] := by
  rw [candidateConflictsSpec, if_neg hlow]
  simp only [hfind]

lemma candidateConflictsSpec_high {rels : List Relation}
    {unit : AtomicUnit} {score : ℚ} (hlow : ¬ score < 1/2)
    (hfind : (get_relations_for_unit rels unit.id).find?
      (fun r => isConflictType r.type) = none)
    (hhigh : score > 85/100) :
    candidateConflictsSpec rels (unit, score)
      = [{ conflicting_unit := unit, relation := none,
           explanation := "Highly similar (score: " ++ fmtScore score ++
             ") but potentially conflicting content" }] := by
  rw [candidateConflictsSpec, if_neg hlow]
  simp only [hfind]
  rw [if_pos hhigh]

lemma candidateConflictsSpec_mid {rels : List Relation}
    {unit : AtomicUnit} {score : ℚ} (hlow : ¬ score < 1/2)
    (hfind : (get_relations_for_unit rels unit.id).find?
      (fun r => isConflictType r.type) = none)
    (hhigh : ¬ score > 85/100) :
    candidateConflictsSpec rels (unit, score) = [] := by
  rw [candidateConflictsSpec, if_neg hlow]
  simp only [hfind]
  rw [if_neg hhigh]

lemma conflictsLoop_acc (rels : List Relation) :
    ∀ (similar : List (AtomicUnit × ℚ)) (acc : List ConflictResult),
      conflictsLoop rels similar acc
        = acc ++ similar.flatMap (candidateConflictsSpec rels) := by
  intro similar
  induction similar with
  | nil => intro acc; simp [conflictsLoop]
  | cons c rest ih =>
    intro acc
    obtain ⟨unit, score⟩ := c
    rw [conflictsLoop]
    by_cases hlow : score < 1/2
    · rw [if_pos hlow, ih]
      simp [candidateConflictsSpec_low hlow]
    · rw [if_neg hlow]
      match hfind : (get_relations_for_unit rels unit.id).find?
          (fun r => isConflictType r.type) with
      | some rel =>
        simp only [hfind]
        rw [ih]
        simp [candidateConflictsSpec_found hlow hfind, List.append_assoc]
      | none =>
        simp only [hfind]
        by_cases hhigh : score > 85/100
        · rw [if_pos hhigh, ih]
          simp [candidateConflictsSpec_high hlow hfind hhigh,
            List.append_assoc]
        · rw [if_neg hhigh, ih]
          simp [candidateConflictsSpec_mid hlow hfind hhigh]

/-- C7: `get_conflicts` emits, per search candidate, exactly what the
spec describes — nothing below similarity 0.5; else one result carrying
the first stored refutes/contradicts relation touching the unit; else,
only above similarity 0.85, one relation-free result whose explanation
quotes the numeric score — hence at most one result per candidate. -/
theorem get_conflicts_per_candidate :
    (∀ (rels : List Relation) (similar : List (AtomicUnit × ℚ)),
      get_conflicts rels similar
        = similar.flatMap (candidateConflictsSpec rels)) ∧
    (∀ (rels : List Relation) (c : AtomicUnit × ℚ),
      (candidateConflictsSpec rels c).length ≤ 1) := by
  constructor
  · intro rels similar
    rw [get_conflicts, conflictsLoop_acc]
    rfl
  · intro rels c
    obtain ⟨unit, score⟩ := c
    by_cases hlow : score < 1/2
    · rw [candidateConflictsSpec_low hlow]; simp
    · match hfind : (get_relations_for_unit rels unit.id).find?
          (fun r => isConflictType r.type) with
      | some rel => rw [candidateConflictsSpec_found hlow hfind]; simp
      | none =>
        by_cases hhigh : score > 85/100
        · rw [candidateConflictsSpec_high hlow hfind hhigh]; simp
        · rw [candidateConflictsSpec_mid hlow hfind hhigh]; simp

/- ------------------------------------------------------------------ -/
/- C2: the relation carried by a lineage step                          -/
/- ------------------------------------------------------------------ -/

/-- C2, counterexample: with the single stored edge `"b" → "a"` and the
traversal order `["a", "b"]`, the first (non-last) step of `find_path`
carries a relation whose `source_id` is `"b"` — the NEXT step's unit —
and whose `target_id` is `"a"`, i.e. the stored direction, NOT the
direction of traversal as the claim states. -/
theorem find_path_relation_not_normalized_counterexample :
    find_path stRev.table gRev [(unitA, 1)] [(unitB, 1)]
      = .ok [{ unit := unitA,
               relation_to_next :=
                 some ⟨"b", "a", "supports", "r"⟩ },
             { unit := unitB, relation_to_next := none }] ∧
    ("b" : String) ≠ "a" := by
  exact ⟨by rfl, by decide⟩

/-- C2 (amended): a non-last step's relation, when present, is the graph
edge between that step's node and the next path node WITH ITS STORED
DIRECTION: the forward edge (current → next) is preferred, and when only
the reverse edge exists the relation has `source_id` = the NEXT step's
unit and `target_id` = the current one. -/
theorem buildSteps_relation_stored_direction (table : List Row)
    (g : DiGraph) (n next : String) (rest : List String) (u : AtomicUnit)
    (h : get_unit table n = some u) :
    buildSteps table g (n :: next :: rest)
      = { unit := u, relation_to_next := relFor g n next }
          :: buildSteps table g (next :: rest) ∧
    ∀ r, relFor g n next = some r →
      (g.has_edge n next = true ∧ r.source_id = n ∧ r.target_id = next) ∨
      (g.has_edge n next = false ∧ g.has_edge next n = true ∧
       r.source_id = next ∧ r.target_id = n) := by
  constructor
  · rw [buildSteps]
    simp only [h]
  · intro r hr
    rw [relFor] at hr
    by_cases hfwd : g.has_edge n next = true
    · rw [if_pos hfwd] at hr
      match hd : g.edge_data n next with
      | none => rw [hd] at hr; exact absurd hr (by simp)
      | some d =>
        rw [hd] at hr
        cases hr
        exact Or.inl ⟨hfwd, rfl, rfl⟩
    · rw [if_neg hfwd] at hr
      by_cases hrev : g.has_edge next n = true
      · rw [if_pos hrev] at hr
        match hd : g.edge_data next n with
        | none => rw [hd] at hr; exact absurd hr (by simp)
        | some d =>
          rw [hd] at hr
          cases hr
          exact Or.inr ⟨Bool.not_eq_true _ ▸ Bool.of_not_eq_true hfwd,
            hrev, rfl, rfl⟩
      · rw [if_neg hrev] at hr
        exact absurd hr (by simp)

/-- C2 (amended), witness at a concrete input. -/
theorem buildSteps_relation_stored_direction_witness :
    (get_unit stRev.table "a" = some unitA) ∧
    (buildSteps stRev.table gRev ["a", "b"]
      = { unit := unitA, relation_to_next := relFor gRev "a" "b" }
          :: buildSteps stRev.table gRev ["b"] ∧
     ∀ r, relFor gRev "a" "b" = some r →
       (gRev.has_edge "a" "b" = true ∧
        r.source_id = "a" ∧ r.target_id = "b") ∨
       (gRev.has_edge "a" "b" = false ∧ gRev.has_edge "b" "a" = true ∧
        r.source_id = "b" ∧ r.target_id = "a")) :=
  ⟨by decide,
   buildSteps_relation_stored_direction stRev.table gRev "a" "b" [] unitA
     (by decide)⟩

/- ------------------------------------------------------------------ -/
/- C1: first-discovered shortest path across candidate pairs           -/
/- ------------------------------------------------------------------ -/

lemma pairsOf_nil_right (sr : List (AtomicUnit × ℚ)) : pairsOf sr [] = [] := by
  simp [pairsOf]

/-- C1: whenever the candidate-pair loop of `find_path` (at most 3 start
and 3 end candidates) produces a best path, `find_path` returns the steps
built from it, and that path is an undirected shortest path for some
considered candidate pair (same-unit pairs skipped): no walk of any
considered pair is shorter, and every considered pair evaluated earlier
in start-major, end-minor order has only strictly longer walks — the
first discovered shortest path wins. -/
theorem find_path_first_shortest (table : List Row) (g : DiGraph)
    (sr er : List (AtomicUnit × ℚ)) (hs3 : sr.length ≤ 3)
    (he3 : er.length ≤ 3) (best : List String)
    (h : tryPairs g (pairsOf sr er) none = .ok (some best)) :
    find_path table g sr er = .ok (buildSteps table g best) ∧
    ∃ (i : Nat) (hi : i < (pairsOf sr er).length),
      ((pairsOf sr er).get ⟨i, hi⟩).1 ≠ ((pairsOf sr er).get ⟨i, hi⟩).2 ∧
      Walk g ((pairsOf sr er).get ⟨i, hi⟩).1
        ((pairsOf sr er).get ⟨i, hi⟩).2 best ∧
      (∀ pr ∈ pairsOf sr er, pr.1 ≠ pr.2 → ∀ q, Walk g pr.1 pr.2 q →
        best.length ≤ q.length) ∧
      (∀ (j : Nat) (hj : j < (pairsOf sr er).length), j < i →
        ((pairsOf sr er).get ⟨j, hj⟩).1 ≠ ((pairsOf sr er).get ⟨j, hj⟩).2 →
        ∀ q, Walk g ((pairsOf sr er).get ⟨j, hj⟩).1
            ((pairsOf sr er).get ⟨j, hj⟩).2 q →
          best.length < q.length) := by
  constructor
  · -- find_path returns the steps built from the loop's best path
    match sr, er with
    | [], _ => exact absurd h (by rw [pairsOf]; simp [tryPairs])
    | _ :: _, [] =>
      rw [pairsOf_nil_right] at h
      exact absurd h (by simp [tryPairs])
    | s0 :: sr', e0 :: er' =>
      rw [find_path]
      simp only [h]
  · rcases tryPairs_origin (pairsOf sr er) none best h with
      hacc | ⟨i, hi, hne, hsp, _, hprev⟩
    · exact absurd hacc (by simp)
    · refine ⟨i, hi, hne, sp_ok_walk hsp, ?_, ?_⟩
      · intro pr hpr hne' q hq
        obtain ⟨b, hb, hble⟩ :=
          tryPairs_min (pairsOf sr er) none (some best) h pr hpr hne' q hq
        cases hb
        exact hble
      · intro j hj hji hjne q hq
        have hnnf := tryPairs_no_notFound (pairsOf sr er) none (some best) h
          ((pairsOf sr er).get ⟨j, hj⟩) (List.get_mem _ _ _) hjne
        match hspj : shortest_path g ((pairsOf sr er).get ⟨j, hj⟩).1
            ((pairsOf sr er).get ⟨j, hj⟩).2 with
        | .ok p =>
          have h1 := hprev j hj hji hjne p hspj
          have h2 := sp_ok_min hspj q hq
          omega
        | .error .noPath =>
          exact absurd hq (sp_noPath hspj q)
        | .error .nodeNotFound =>
          exact absurd hspj hnnf

/-- C1, witness at a concrete input: one pair, one stored edge. -/
theorem find_path_first_shortest_witness :
    ([(unitA, 1)] : List (AtomicUnit × ℚ)).length ≤ 3 ∧
    ([(unitB, 1)] : List (AtomicUnit × ℚ)).length ≤ 3 ∧
    tryPairs gRev (pairsOf [(unitA, 1)] [(unitB, 1)]) none
      = .ok (some ["a", "b"]) ∧
    (find_path stRev.table gRev [(unitA, 1)] [(unitB, 1)]
      = .ok (buildSteps stRev.table gRev ["a", "b"]) ∧
    ∃ (i : Nat) (hi : i < (pairsOf [(unitA, 1)] [(unitB, 1)]).length),
      ((pairsOf [(unitA, 1)] [(unitB, 1)]).get ⟨i, hi⟩).1
        ≠ ((pairsOf [(unitA, 1)] [(unitB, 1)]).get ⟨i, hi⟩).2 ∧
      Walk gRev ((pairsOf [(unitA, 1)] [(unitB, 1)]).get ⟨i, hi⟩).1
        ((pairsOf [(unitA, 1)] [(unitB, 1)]).get ⟨i, hi⟩).2 ["a", "b"] ∧
      (∀ pr ∈ pairsOf [(unitA, 1)] [(unitB, 1)], pr.1 ≠ pr.2 →
        ∀ q, Walk gRev pr.1 pr.2 q → (["a", "b"] : List String).length ≤ q.length) ∧
      (∀ (j : Nat) (hj : j < (pairsOf [(unitA, 1)] [(unitB, 1)]).length),
        j < i →
        ((pairsOf [(unitA, 1)] [(unitB, 1)]).get ⟨j, hj⟩).1
          ≠ ((pairsOf [(unitA, 1)] [(unitB, 1)]).get ⟨j, hj⟩).2 →
        ∀ q, Walk gRev ((pairsOf [(unitA, 1)] [(unitB, 1)]).get ⟨j, hj⟩).1
            ((pairsOf [(unitA, 1)] [(unitB, 1)]).get ⟨j, hj⟩).2 q →
          (["a", "b"] : List String).length < q.length)) :=
  ⟨by decide, by decide, by rfl,
   find_path_first_shortest stRev.table gRev [(unitA, 1)] [(unitB, 1)]
     (by decide) (by decide) ["a", "b"] (by rfl)⟩

/- ------------------------------------------------------------------ -/
/- C6: disconnected concepts                                           -/
/- ------------------------------------------------------------------ -/

lemma walk_eq_of_no_edges {g : DiGraph} (hE : g.edges = [])
    {s t : String} {p : List String} (h : Walk g s t p) : s = t := by
  induction h with
  | single s => rfl
  | cons hadj hw ih =>
    exfalso
    rw [DiGraph.adjB, DiGraph.has_edge, DiGraph.has_edge, hE] at hadj
    simp at hadj

/-- C6, counterexample: both concepts resolve (one candidate each, both
units present in the vector index) and no candidate pair yields a path —
the graph, rebuilt from an empty relation store, has no nodes at all —
yet `find_path` does NOT return the two-step degenerate result: the
`NodeNotFound` raised by `nx.shortest_path` is not caught (only
`NetworkXNoPath` is), so an error escapes. -/
theorem find_path_disconnected_counterexample :
    find_path [rowA, rowB] (load_graph_from_persistence [])
        [(unitA, 1)] [(unitB, 1)]
      = .error .nodeNotFound ∧
    (∀ q, ¬ Walk (load_graph_from_persistence []) "a" "b" q) := by
  refine ⟨by rfl, ?_⟩
  intro q hq
  exact absurd (walk_eq_of_no_edges rfl hq) (by decide)

/-- C6 (amended): when both concepts resolve to at least one match, every
considered candidate id is a node of the graph, and no considered pair is
connected by any walk, `find_path` returns exactly the two-step
degenerate result (best start match, best end match, no relations) and no
error; when a considered candidate id is missing from the graph the call
instead fails with the uncaught `NodeNotFound`. -/
theorem find_path_disconnected (table : List Row) (g : DiGraph)
    (s0 e0 : AtomicUnit × ℚ) (sr' er' : List (AtomicUnit × ℚ))
    (hmem : ∀ pr ∈ pairsOf (s0 :: sr') (e0 :: er'), pr.1 ≠ pr.2 →
      pr.1 ∈ g.allNodes ∧ pr.2 ∈ g.allNodes)
    (hnw : ∀ pr ∈ pairsOf (s0 :: sr') (e0 :: er'), pr.1 ≠ pr.2 →
      ∀ q, ¬ Walk g pr.1 pr.2 q) :
    find_path table g (s0 :: sr') (e0 :: er')
      = .ok [{ unit := s0.1, relation_to_next := none },
             { unit := e0.1, relation_to_next := none }] := by
  rw [find_path]
  rw [tryPairs_ok_none_of_no_walk (pairsOf (s0 :: sr') (e0 :: er'))
    hmem hnw]

/-- C6 (amended), witness: two isolated nodes. -/
theorem find_path_disconnected_witness :
    (∀ pr ∈ pairsOf [(unitA, 1)] [(unitB, 1)], pr.1 ≠ pr.2 →
      pr.1 ∈ gIsolated.allNodes ∧ pr.2 ∈ gIsolated.allNodes) ∧
    (∀ pr ∈ pairsOf [(unitA, 1)] [(unitB, 1)], pr.1 ≠ pr.2 →
      ∀ q, ¬ Walk gIsolated pr.1 pr.2 q) ∧
    find_path [rowA, rowB] gIsolated [(unitA, 1)] [(unitB, 1)]
      = .ok [{ unit := unitA, relation_to_next := none },
             { unit := unitB, relation_to_next := none }] :=
  ⟨by decide,
   fun pr _ hne q hq => hne (walk_eq_of_no_edges rfl hq),
   find_path_disconnected [rowA, rowB] gIsolated (unitA, 1) (unitB, 1) [] []
     (by decide)
     (fun pr _ hne q hq => hne (walk_eq_of_no_edges rfl hq))⟩

end KG
